import Mathlib

/-!
Verification of the semantic-version classifier of the token-list repository.

The classifier `determineVersionIncrement` lives in the build script
(`utils/build.ts`): it consumes a list of per-file change records and returns
one of the verdicts major / minor / patch / null.  The test file
`tests/semantic-versioning.test.js` carries a second copy of the function whose
identity key substitutes the sentinel string "undefined" for a falsy `chainId`.
Both are embedded below over a shallow model of JS values:

  * a JS token object becomes the structure `Token` (optional fields become
    `Option`);
  * the JS `Map` built from a key/value array becomes an association list with
    first-insertion order and last-write-wins values (`buildMap`);
  * the template-literal key `addr-chainId` becomes explicit string
    concatenation, with the decimal rendering of a `Nat` spelled out
    (`natToString`) and the absent case rendered as "undefined";
  * the three `for` loops with `break` become structural recursions that
    mirror the early exits exactly.
-/

namespace TokenList

/-- The three increment kinds the classifier can request; the JS function
returns one of the strings "major" / "minor" / "patch" or `null`, modelled as
`Option Increment`. -/
inductive Increment where
  | major
  | minor
  | patch
  deriving DecidableEq

/-- One token record, after the `Token` interface of the build script:
`address`, `name`, `symbol`, `decimals` are required, `chainId` and `logoURI`
are optional. -/
structure Token where
  address : String
  chainId : Option Nat
  name : String
  symbol : String
  decimals : Nat
  logoURI : Option String
  deriving DecidableEq

/-- The `type` field of a change record. -/
inductive ChangeType where
  | added
  | modified
  | deleted
  deriving DecidableEq

/-- One change record, after the `TokenChange` interface of the build script. -/
structure TokenChange where
  file : String
  type : ChangeType
  before : Option (List Token)
  after : Option (List Token)
  deriving DecidableEq

/-- One decimal digit character. -/
def digitChar (d : Nat) : Char :=
  if d = 0 then '0' else if d = 1 then '1' else if d = 2 then '2'
  else if d = 3 then '3' else if d = 4 then '4' else if d = 5 then '5'
  else if d = 6 then '6' else if d = 7 then '7' else if d = 8 then '8' else '9'

/-- Digit accumulator for `natToString`; the first argument is fuel (`n + 1`
always suffices since the value shrinks by a factor of ten each step). -/
def natToStringAux : Nat → Nat → List Char → List Char
  | 0, _, acc => acc
  | fuel + 1, n, acc =>
    if n < 10 then digitChar (n % 10) :: acc
    else natToStringAux fuel (n / 10) (digitChar (n % 10) :: acc)

/-- Decimal rendering of a natural number, the JS number-to-string coercion a
template literal performs on a (non-negative integer) `chainId`. -/
def natToString (n : Nat) : String :=
  ⟨natToStringAux (n + 1) n []⟩

/-- The build script's rendering of `token.chainId` inside the template
literal: an absent value prints as "undefined". -/
def chainIdInterp : Option Nat → String
  | none => "undefined"
  | some n => natToString n

/-- Identity key of the build script: the template literal
`addr-chainId`. -/
def buildKey (t : Token) : String :=
  t.address ++ "-" ++ chainIdInterp t.chainId

/-- The test file's rendering: `chainId || "undefined"`, so any falsy value of
`chainId` — absent or the number 0 — becomes the sentinel. -/
def chainIdInterpTest : Option Nat → String
  | none => "undefined"
  | some n => if n = 0 then "undefined" else natToString n

/-- Identity key of the test file's copy of the classifier. -/
def testKey (t : Token) : String :=
  t.address ++ "-" ++ chainIdInterpTest t.chainId

/-- Whether an association list (a JS `Map`) carries an entry for `k`. -/
def hasKey (m : List (String × Token)) (k : String) : Bool :=
  m.any fun p => decide (p.1 = k)

/-- `Map.get`: the value at `k`, when present. -/
def mapLookup (m : List (String × Token)) (k : String) : Option Token :=
  (m.find? fun p => decide (p.1 = k)).map Prod.snd

/-- `Map.set` semantics: an existing key keeps its position and receives the
new value, a fresh key is appended. -/
def insertEntry (m : List (String × Token)) (k : String) (t : Token) :
    List (String × Token) :=
  if hasKey m k then m.map fun p => if p.1 = k then (k, t) else p
  else m ++ [(k, t)]

/-- `new Map(tokens.map((token) => [key(token), token]))`: entries in
first-insertion order, later duplicates overwriting earlier values. -/
def buildMap (key : Token → String) (ts : List Token) : List (String × Token) :=
  ts.foldl (fun m t => insertEntry m (key t) t) []

/-- The identity sub-check inside the matched-key loop:
`before.address !== after.address || before.chainId !== after.chainId`. -/
def tokenIdentityDiffers (b a : Token) : Bool :=
  decide (b.address ≠ a.address) || decide (b.chainId ≠ a.chainId)

/-- The field loop over `["name", "symbol", "logoURI", "decimals"]` with
strict inequality; the inner `break` only stops scanning once a mismatch is
found, so the flag it produces is this disjunction. -/
def tokenFieldsDiffer (b a : Token) : Bool :=
  decide (b.name ≠ a.name) || decide (b.symbol ≠ a.symbol) ||
    decide (b.logoURI ≠ a.logoURI) || decide (b.decimals ≠ a.decimals)

/-- The third loop of the `modified` branch: walk the before-map, and for each
key also present in the after-map either set the major flag and `break` (on an
identity mismatch) or accumulate the patch flag from the field comparison. -/
def matchedLoop (am : List (String × Token)) :
    List (String × Token) → Bool → Bool → Bool × Bool
  | [], maj, pat => (maj, pat)
  | (k, bt) :: rest, maj, pat =>
    match mapLookup am k with
    | some aft =>
      if tokenIdentityDiffers bt aft then (true, pat)
      else matchedLoop am rest maj (pat || tokenFieldsDiffer bt aft)
    | none => matchedLoop am rest maj pat

/-- The whole `modified` branch: build both maps, OR the removal check into
the major flag, OR the addition check into the minor flag, then run the
matched-key loop. -/
def processModified (key : Token → String) (before after : List Token)
    (maj minor pat : Bool) : Bool × Bool × Bool :=
  let beforeMap := buildMap key before
  let afterMap := buildMap key after
  let maj1 := maj || beforeMap.any fun p => !hasKey afterMap p.1
  let minor1 := minor || afterMap.any fun p => !hasKey beforeMap p.1
  let r := matchedLoop afterMap beforeMap maj1 pat
  (r.1, minor1, r.2)

/-- The body of the `for (const change of changes)` loop, acting on the flag
triple (major, minor, patch); missing `before`/`after` arrays default to `[]`
as in `change.before || []`. -/
def stepChange (key : Token → String) (flags : Bool × Bool × Bool)
    (c : TokenChange) : Bool × Bool × Bool :=
  match c.type with
  | ChangeType.deleted => (true, flags.2.1, flags.2.2)
  | ChangeType.added => (flags.1, true, flags.2.2)
  | ChangeType.modified =>
    processModified key (c.before.getD []) (c.after.getD [])
      flags.1 flags.2.1 flags.2.2

/-- The classifier, parameterised by the identity-key function (the one point
where the build script and the test file differ). -/
def determineVersionIncrementKeyed (key : Token → String)
    (changes : List TokenChange) : Option Increment :=
  let flags := changes.foldl (stepChange key) (false, false, false)
  if flags.1 then some Increment.major
  else if flags.2.1 then some Increment.minor
  else if flags.2.2 then some Increment.patch
  else none

/-- `determineVersionIncrement` of the build script. -/
def determineVersionIncrement (changes : List TokenChange) : Option Increment :=
  determineVersionIncrementKeyed buildKey changes

/-- `determineVersionIncrement` as copied into
`tests/semantic-versioning.test.js` (sentinel key for falsy `chainId`). -/
def determineVersionIncrementTest (changes : List TokenChange) : Option Increment :=
  determineVersionIncrementKeyed testKey changes

/-- Version triple of `base.tokenlist.json`. -/
structure Version where
  major : Nat
  minor : Nat
  patch : Nat
  deriving DecidableEq

/-- The slice of the token-list template the version-increment consumer
touches: the version triple and the published timestamp. -/
structure Template where
  version : Version
  timestamp : String
  deriving DecidableEq

/-- The consumer of the verdict in the build script: the `switch` on
`incrementType` computing `newVersion` and stamping the template, and the
`incrementType === null` path that leaves the template untouched. -/
def applyIncrement (tpl : Template) (now : String) : Option Increment → Template
  | none => tpl
  | some Increment.major =>
    { version := { major := tpl.version.major + 1, minor := 0, patch := 0 }
      timestamp := now }
  | some Increment.minor =>
    { version := { tpl.version with minor := tpl.version.minor + 1, patch := 0 }
      timestamp := now }
  | some Increment.patch =>
    { version := { tpl.version with patch := tpl.version.patch + 1 }
      timestamp := now }

/-! ### Order-free characterisation of the flags

The loops above accumulate three boolean flags with early exits.  The
predicates below restate each flag as a plain existential over the change
list; `determineVersionIncrementKeyed_eq` proves the classifier equal to the
priority chain over these predicates. -/

/-- The matched-key identity test seen by one before-map entry. -/
def matchIdent (am : List (String × Token)) (p : String × Token) : Bool :=
  match mapLookup am p.1 with
  | some aft => tokenIdentityDiffers p.2 aft
  | none => false

/-- The matched-key field test seen by one before-map entry. -/
def matchField (am : List (String × Token)) (p : String × Token) : Bool :=
  match mapLookup am p.1 with
  | some aft => tokenFieldsDiffer p.2 aft
  | none => false

/-- Some key of `before` is missing from `after`. -/
def removedAny (key : Token → String) (before after : List Token) : Bool :=
  (buildMap key before).any fun p => !hasKey (buildMap key after) p.1

/-- Some key of `after` is missing from `before`. -/
def addedAny (key : Token → String) (before after : List Token) : Bool :=
  (buildMap key after).any fun p => !hasKey (buildMap key before) p.1

/-- Some matched key carries an address/chainId mismatch. -/
def identityAny (key : Token → String) (before after : List Token) : Bool :=
  (buildMap key before).any (matchIdent (buildMap key after))

/-- Some matched key carries a compared-field mismatch. -/
def fieldAny (key : Token → String) (before after : List Token) : Bool :=
  (buildMap key before).any (matchField (buildMap key after))

/-- Whether a single record raises the major flag. -/
def majRecord (key : Token → String) (c : TokenChange) : Bool :=
  match c.type with
  | ChangeType.deleted => true
  | ChangeType.added => false
  | ChangeType.modified =>
    removedAny key (c.before.getD []) (c.after.getD []) ||
      identityAny key (c.before.getD []) (c.after.getD [])

/-- Whether a single record raises the minor flag. -/
def minRecord (key : Token → String) (c : TokenChange) : Bool :=
  match c.type with
  | ChangeType.deleted => false
  | ChangeType.added => true
  | ChangeType.modified => addedAny key (c.before.getD []) (c.after.getD [])

/-- Whether a single record raises the patch flag. -/
def patRecord (key : Token → String) (c : TokenChange) : Bool :=
  match c.type with
  | ChangeType.modified => fieldAny key (c.before.getD []) (c.after.getD [])
  | _ => false

/-- The major flag condition over a whole change list. -/
def majFlag (key : Token → String) (changes : List TokenChange) : Bool :=
  changes.any (majRecord key)

/-- The minor flag condition over a whole change list. -/
def minFlag (key : Token → String) (changes : List TokenChange) : Bool :=
  changes.any (minRecord key)

/-- The patch flag condition over a whole change list. -/
def patFlag (key : Token → String) (changes : List TokenChange) : Bool :=
  changes.any (patRecord key)

theorem matchedLoop_fst (am : List (String × Token)) (l : List (String × Token))
    (maj pat : Bool) :
    (matchedLoop am l maj pat).1 = (maj || l.any (matchIdent am)) := by
  induction l generalizing maj pat with
  | nil => simp [matchedLoop]
  | cons p rest ih =>
    obtain ⟨k, bt⟩ := p
    simp only [matchedLoop, List.any_cons]
    cases h : mapLookup am k with
    | none => simp [ih, matchIdent, h]
    | some aft =>
      by_cases hid : tokenIdentityDiffers bt aft = true
      · simp [hid, matchIdent, h]
      · simp only [Bool.not_eq_true] at hid
        simp [hid, ih, matchIdent, h]

theorem matchedLoop_snd (am : List (String × Token)) (l : List (String × Token))
    (maj pat : Bool) (h : l.any (matchIdent am) = false) :
    (matchedLoop am l maj pat).2 = (pat || l.any (matchField am)) := by
  induction l generalizing maj pat with
  | nil => simp [matchedLoop]
  | cons p rest ih =>
    obtain ⟨k, bt⟩ := p
    simp only [List.any_cons, Bool.or_eq_false_iff] at h
    cases hl : mapLookup am k with
    | none =>
      rw [show matchedLoop am ((k, bt) :: rest) maj pat =
            matchedLoop am rest maj pat by simp [matchedLoop, hl]]
      rw [ih maj pat h.2]
      simp [matchField, hl]
    | some aft =>
      have hid : tokenIdentityDiffers bt aft = false := by
        have := h.1
        simpa [matchIdent, hl] using this
      rw [show matchedLoop am ((k, bt) :: rest) maj pat =
            matchedLoop am rest maj (pat || tokenFieldsDiffer bt aft) by
          simp [matchedLoop, hl, hid]]
      rw [ih maj _ h.2]
      simp [matchField, hl, Bool.or_assoc]

theorem stepChange_fst (key : Token → String) (flags : Bool × Bool × Bool)
    (c : TokenChange) :
    (stepChange key flags c).1 = (flags.1 || majRecord key c) := by
  obtain ⟨m, n, p⟩ := flags
  cases hty : c.type
  · simp [stepChange, hty, majRecord]
  · simp only [stepChange, hty, majRecord]
    simp [processModified, matchedLoop_fst, removedAny, identityAny, Bool.or_assoc]
  · simp [stepChange, hty, majRecord]

theorem stepChange_snd1 (key : Token → String) (flags : Bool × Bool × Bool)
    (c : TokenChange) :
    (stepChange key flags c).2.1 = (flags.2.1 || minRecord key c) := by
  obtain ⟨m, n, p⟩ := flags
  cases hty : c.type
  · simp [stepChange, hty, minRecord]
  · simp only [stepChange, hty, minRecord]
    simp [processModified, addedAny]
  · simp [stepChange, hty, minRecord]

theorem stepChange_snd2 (key : Token → String) (flags : Bool × Bool × Bool)
    (c : TokenChange) (h : majRecord key c = false) :
    (stepChange key flags c).2.2 = (flags.2.2 || patRecord key c) := by
  obtain ⟨m, n, p⟩ := flags
  cases hty : c.type
  · simp [stepChange, hty, patRecord]
  · simp only [majRecord, hty,
      Bool.or_eq_false_iff] at h
    simp only [stepChange, hty, patRecord, processModified]
    rw [matchedLoop_snd _ _ _ _ h.2]
    simp [fieldAny]
  · simp [majRecord, hty] at h

theorem foldl_fst (key : Token → String) (changes : List TokenChange)
    (flags : Bool × Bool × Bool) :
    (changes.foldl (stepChange key) flags).1 = (flags.1 || majFlag key changes) := by
  induction changes generalizing flags with
  | nil => simp [majFlag]
  | cons c cs ih =>
    simp only [List.foldl_cons, ih, stepChange_fst, majFlag, List.any_cons,
      Bool.or_assoc]

theorem foldl_snd1 (key : Token → String) (changes : List TokenChange)
    (flags : Bool × Bool × Bool) :
    (changes.foldl (stepChange key) flags).2.1 = (flags.2.1 || minFlag key changes) := by
  induction changes generalizing flags with
  | nil => simp [minFlag]
  | cons c cs ih =>
    simp only [List.foldl_cons, ih, stepChange_snd1, minFlag, List.any_cons,
      Bool.or_assoc]

theorem foldl_snd2 (key : Token → String) (changes : List TokenChange)
    (flags : Bool × Bool × Bool) (h : majFlag key changes = false) :
    (changes.foldl (stepChange key) flags).2.2 = (flags.2.2 || patFlag key changes) := by
  induction changes generalizing flags with
  | nil => simp [patFlag]
  | cons c cs ih =>
    simp only [majFlag, List.any_cons, Bool.or_eq_false_iff] at h
    rw [List.foldl_cons, ih _ h.2, stepChange_snd2 _ _ _ h.1]
    simp [patFlag, Bool.or_assoc]

/-- The classifier equals the priority chain over the order-free flag
predicates. -/
theorem determineVersionIncrementKeyed_eq (key : Token → String)
    (changes : List TokenChange) :
    determineVersionIncrementKeyed key changes =
      (if majFlag key changes then some Increment.major
       else if minFlag key changes then some Increment.minor
       else if patFlag key changes then some Increment.patch
       else none) := by
  unfold determineVersionIncrementKeyed
  by_cases hmaj : majFlag key changes = true
  · simp [foldl_fst, hmaj]
  · simp only [Bool.not_eq_true] at hmaj
    simp [foldl_fst, foldl_snd1, foldl_snd2 key changes _ hmaj, hmaj]

/-! ### Association-list facts about `buildMap` -/

theorem any_pointwise {α : Type} (l : List α) (p q : α → Bool)
    (h : ∀ x ∈ l, p x = q x) : l.any p = l.any q := by
  induction l with
  | nil => rfl
  | cons x l ih =>
    simp only [List.any_cons, h x (List.mem_cons_self x l),
      ih fun u hu => h u (List.mem_cons_of_mem x hu)]

theorem perm_any {α : Type} (p : α → Bool) {l₁ l₂ : List α} (h : l₁.Perm l₂) :
    l₁.any p = l₂.any p := by
  induction h with
  | nil => rfl
  | cons x _ ih => simp [List.any_cons, ih]
  | swap x y l => simp [List.any_cons, Bool.or_left_comm]
  | trans _ _ ih1 ih2 => exact ih1.trans ih2

theorem hasKey_eq_keys_any (m : List (String × Token)) (k : String) :
    hasKey m k = (m.map Prod.fst).any fun s => decide (s = k) := by
  induction m with
  | nil => rfl
  | cons p m ih =>
    simp only [hasKey, List.map_cons, List.any_cons] at ih ⊢
    rw [ih]

theorem hasKey_append (m₁ m₂ : List (String × Token)) (k : String) :
    hasKey (m₁ ++ m₂) k = (hasKey m₁ k || hasKey m₂ k) := by
  simp [hasKey, List.any_append]

theorem fst_replaceEntry (k' : String) (t : Token) (p : String × Token) :
    ((if p.1 = k' then (k', t) else p) : String × Token).1 = p.1 := by
  by_cases h : p.1 = k' <;> simp [h]

theorem map_fst_insertEntry (m : List (String × Token)) (k' : String) (t : Token) :
    (insertEntry m k' t).map Prod.fst =
      if hasKey m k' then m.map Prod.fst else m.map Prod.fst ++ [k'] := by
  unfold insertEntry
  by_cases hp : hasKey m k' = true
  · rw [if_pos hp, if_pos hp, List.map_map]
    have : (Prod.fst ∘ fun p : String × Token => if p.1 = k' then (k', t) else p) =
        (Prod.fst : String × Token → String) :=
      funext fun p => fst_replaceEntry k' t p
    rw [this]
  · rw [if_neg hp, if_neg hp, List.map_append]
    rfl

theorem hasKey_insertEntry (m : List (String × Token)) (k' : String) (t : Token)
    (k : String) :
    hasKey (insertEntry m k' t) k = (hasKey m k || decide (k' = k)) := by
  rw [hasKey_eq_keys_any, map_fst_insertEntry]
  by_cases hp : hasKey m k' = true
  · rw [if_pos hp, ← hasKey_eq_keys_any]
    by_cases hk : k' = k
    · subst hk
      simp [hp]
    · simp [hk]
  · rw [if_neg hp, List.any_append, ← hasKey_eq_keys_any]
    simp

theorem hasKey_buildMap (key : Token → String) (ts : List Token) (k : String) :
    hasKey (buildMap key ts) k = ts.any fun t => decide (key t = k) := by
  suffices h : ∀ m, hasKey (ts.foldl (fun m t => insertEntry m (key t) t) m) k
      = (hasKey m k || ts.any fun t => decide (key t = k)) by
    simpa [buildMap, hasKey] using h []
  induction ts with
  | nil => intro m; simp
  | cons t ts ih =>
    intro m
    simp only [List.foldl_cons, List.any_cons, ih, hasKey_insertEntry, Bool.or_assoc]

theorem insertEntry_of_not_hasKey (m : List (String × Token)) (k : String)
    (t : Token) (h : hasKey m k = false) : insertEntry m k t = m ++ [(k, t)] := by
  simp [insertEntry, h]

theorem buildMap_eq_of_nodup_aux (key : Token → String) :
    ∀ (ts : List Token) (m : List (String × Token)),
      (ts.map key).Nodup → (∀ t ∈ ts, hasKey m (key t) = false) →
      ts.foldl (fun m t => insertEntry m (key t) t) m =
        m ++ ts.map fun t => (key t, t) := by
  intro ts
  induction ts with
  | nil => intro m _ _; simp
  | cons t ts ih =>
    intro m hnd hm
    simp only [List.map_cons, List.nodup_cons] at hnd
    have hmt : hasKey m (key t) = false := hm t (List.mem_cons_self t ts)
    simp only [List.foldl_cons, insertEntry_of_not_hasKey m (key t) t hmt]
    rw [ih (m ++ [(key t, t)]) hnd.2 ?_]
    · simp
    · intro u hu
      have h1 : hasKey m (key u) = false := hm u (List.mem_cons_of_mem t hu)
      have h2 : key t ≠ key u := fun he => hnd.1 (he ▸ List.mem_map_of_mem key hu)
      rw [hasKey_append, h1]
      simp [hasKey, h2]

theorem buildMap_eq_of_nodup (key : Token → String) (ts : List Token)
    (h : (ts.map key).Nodup) :
    buildMap key ts = ts.map fun t => (key t, t) := by
  have := buildMap_eq_of_nodup_aux key ts [] h (by intro t _; simp [hasKey])
  simpa [buildMap] using this

theorem mapLookup_map_of_mem (key : Token → String) (l : List Token)
    (h : (l.map key).Nodup) (u : Token) (hu : u ∈ l) :
    mapLookup (l.map fun t => (key t, t)) (key u) = some u := by
  induction l with
  | nil => cases hu
  | cons x l ih =>
    simp only [List.map_cons, List.nodup_cons] at h
    by_cases hx : key x = key u
    · have hux : u = x := by
        rcases List.mem_cons.mp hu with h1 | h1
        · exact h1
        · exact absurd (hx ▸ List.mem_map_of_mem key h1) h.1
      subst hux
      simp only [List.map_cons, mapLookup]
      rw [List.find?_cons_of_pos _ (by simp)]
      rfl
    · have hu' : u ∈ l := by
        rcases List.mem_cons.mp hu with h1 | h1
        · exact absurd (h1 ▸ rfl) hx
        · exact h1
      have := ih h.2 hu'
      simp only [List.map_cons, mapLookup] at this ⊢
      rw [List.find?_cons_of_neg _ (by simp [hx])]
      exact this

theorem mapLookup_map_eq_none (key : Token → String) (l : List Token) (k : String)
    (h : ∀ u ∈ l, key u ≠ k) :
    mapLookup (l.map fun t => (key t, t)) k = none := by
  have hfind : (l.map fun t => (key t, t)).find? (fun p => decide (p.1 = k)) = none := by
    rw [List.find?_eq_none]
    intro p hp
    simp only [List.mem_map] at hp
    obtain ⟨u, hu, rfl⟩ := hp
    simp [h u hu]
  simp [mapLookup, hfind]

theorem mapLookup_buildMap_perm (key : Token → String) {a a' : List Token}
    (h : a.Perm a') (hn : (a.map key).Nodup) (k : String) :
    mapLookup (buildMap key a') k = mapLookup (buildMap key a) k := by
  have hn' : (a'.map key).Nodup := (h.map key).nodup_iff.mp hn
  rw [buildMap_eq_of_nodup key a hn, buildMap_eq_of_nodup key a' hn']
  by_cases hk : ∃ u ∈ a, key u = k
  · obtain ⟨u, hu, rfl⟩ := hk
    rw [mapLookup_map_of_mem key a hn u hu,
      mapLookup_map_of_mem key a' hn' u (h.mem_iff.mp hu)]
  · push_neg at hk
    rw [mapLookup_map_eq_none key a k hk,
      mapLookup_map_eq_none key a' k fun u hu => hk u (h.mem_iff.mpr hu)]

theorem hasKey_buildMap_perm (key : Token → String) {a a' : List Token}
    (h : a.Perm a') (k : String) :
    hasKey (buildMap key a') k = hasKey (buildMap key a) k := by
  rw [hasKey_buildMap, hasKey_buildMap]
  exact (perm_any _ h).symm

/-! ### Permutation congruence for the per-record flag predicates -/

theorem removedAny_perm (key : Token → String) {b b' a a' : List Token}
    (hb : b.Perm b') (ha : a.Perm a') (hnb : (b.map key).Nodup) :
    removedAny key b' a' = removedAny key b a := by
  have hnb' : (b'.map key).Nodup := (hb.map key).nodup_iff.mp hnb
  unfold removedAny
  rw [buildMap_eq_of_nodup key b hnb, buildMap_eq_of_nodup key b' hnb']
  calc (b'.map fun t => (key t, t)).any (fun p => !hasKey (buildMap key a') p.1)
      = (b.map fun t => (key t, t)).any (fun p => !hasKey (buildMap key a') p.1) :=
        perm_any _ ((hb.map _).symm)
    _ = (b.map fun t => (key t, t)).any (fun p => !hasKey (buildMap key a) p.1) := by
        refine any_pointwise _ _ _ fun p _ => ?_
        rw [hasKey_buildMap_perm key ha]

theorem addedAny_perm (key : Token → String) {b b' a a' : List Token}
    (hb : b.Perm b') (ha : a.Perm a') (hna : (a.map key).Nodup) :
    addedAny key b' a' = addedAny key b a := by
  have hna' : (a'.map key).Nodup := (ha.map key).nodup_iff.mp hna
  unfold addedAny
  rw [buildMap_eq_of_nodup key a hna, buildMap_eq_of_nodup key a' hna']
  calc (a'.map fun t => (key t, t)).any (fun p => !hasKey (buildMap key b') p.1)
      = (a.map fun t => (key t, t)).any (fun p => !hasKey (buildMap key b') p.1) :=
        perm_any _ ((ha.map _).symm)
    _ = (a.map fun t => (key t, t)).any (fun p => !hasKey (buildMap key b) p.1) := by
        refine any_pointwise _ _ _ fun p _ => ?_
        rw [hasKey_buildMap_perm key hb]

theorem identityAny_perm (key : Token → String) {b b' a a' : List Token}
    (hb : b.Perm b') (ha : a.Perm a') (hnb : (b.map key).Nodup)
    (hna : (a.map key).Nodup) :
    identityAny key b' a' = identityAny key b a := by
  have hnb' : (b'.map key).Nodup := (hb.map key).nodup_iff.mp hnb
  unfold identityAny
  rw [buildMap_eq_of_nodup key b hnb, buildMap_eq_of_nodup key b' hnb']
  calc (b'.map fun t => (key t, t)).any (matchIdent (buildMap key a'))
      = (b.map fun t => (key t, t)).any (matchIdent (buildMap key a')) :=
        perm_any _ ((hb.map _).symm)
    _ = (b.map fun t => (key t, t)).any (matchIdent (buildMap key a)) := by
        refine any_pointwise _ _ _ fun p _ => ?_
        unfold matchIdent
        rw [mapLookup_buildMap_perm key ha hna]

theorem fieldAny_perm (key : Token → String) {b b' a a' : List Token}
    (hb : b.Perm b') (ha : a.Perm a') (hnb : (b.map key).Nodup)
    (hna : (a.map key).Nodup) :
    fieldAny key b' a' = fieldAny key b a := by
  have hnb' : (b'.map key).Nodup := (hb.map key).nodup_iff.mp hnb
  unfold fieldAny
  rw [buildMap_eq_of_nodup key b hnb, buildMap_eq_of_nodup key b' hnb']
  calc (b'.map fun t => (key t, t)).any (matchField (buildMap key a'))
      = (b.map fun t => (key t, t)).any (matchField (buildMap key a')) :=
        perm_any _ ((hb.map _).symm)
    _ = (b.map fun t => (key t, t)).any (matchField (buildMap key a)) := by
        refine any_pointwise _ _ _ fun p _ => ?_
        unfold matchField
        rw [mapLookup_buildMap_perm key ha hna]

/-! ### `Map.set` keeps one entry per key, last write winning -/

theorem mapLookup_replace_of_hasKey (k : String) (t : Token) :
    ∀ m : List (String × Token), hasKey m k = true →
      mapLookup (m.map fun p => if p.1 = k then (k, t) else p) k = some t := by
  intro m
  induction m with
  | nil => intro h; simp [hasKey] at h
  | cons p m ih =>
    intro h
    by_cases hp : p.1 = k
    · simp only [List.map_cons, if_pos hp, mapLookup]
      rw [List.find?_cons_of_pos _ (by simp)]
      rfl
    · have h' : hasKey m k = true := by
        simpa [hasKey, List.any_cons, hp] using h
      have := ih h'
      simp only [List.map_cons, if_neg hp, mapLookup] at this ⊢
      rw [List.find?_cons_of_neg _ (by simp [hp])]
      exact this

theorem mapLookup_append_single (k : String) (t : Token) :
    ∀ m : List (String × Token), hasKey m k = false →
      mapLookup (m ++ [(k, t)]) k = some t := by
  intro m
  induction m with
  | nil =>
    intro _
    simp only [List.nil_append, mapLookup]
    rw [List.find?_cons_of_pos _ (by simp)]
    rfl
  | cons p m ih =>
    intro h
    simp only [hasKey, List.any_cons, Bool.or_eq_false_iff] at h
    have := ih (by simpa [hasKey] using h.2)
    simp only [List.cons_append, mapLookup] at this ⊢
    rw [List.find?_cons_of_neg _ (by simp [of_decide_eq_false h.1])]
    exact this

theorem mapLookup_insertEntry_self (m : List (String × Token)) (k : String)
    (t : Token) : mapLookup (insertEntry m k t) k = some t := by
  by_cases hp : hasKey m k = true
  · rw [show insertEntry m k t = m.map fun p => if p.1 = k then (k, t) else p by
      simp [insertEntry, hp]]
    exact mapLookup_replace_of_hasKey k t m hp
  · have hp' : hasKey m k = false := by simpa using hp
    rw [insertEntry_of_not_hasKey m k t hp']
    exact mapLookup_append_single k t m hp'

theorem buildMap_concat (key : Token → String) (ts : List Token) (t : Token) :
    buildMap key (ts ++ [t]) = insertEntry (buildMap key ts) (key t) t := by
  simp [buildMap, List.foldl_append]

theorem nodup_keys_insertEntry (m : List (String × Token)) (k : String) (t : Token)
    (h : (m.map Prod.fst).Nodup) : ((insertEntry m k t).map Prod.fst).Nodup := by
  rw [map_fst_insertEntry]
  by_cases hp : hasKey m k = true
  · simpa [hp] using h
  · have hp' : hasKey m k = false := by simpa using hp
    rw [if_neg (by simp [hp'])]
    rw [List.nodup_append]
    refine ⟨h, List.nodup_singleton k, ?_⟩
    intro s hs hk
    rw [List.mem_singleton.mp hk] at hs
    have : (m.map Prod.fst).any (fun s => decide (s = k)) = false := by
      rw [← hasKey_eq_keys_any]; exact hp'
    have := List.any_eq_false.mp this k hs
    simp at this

theorem nodup_keys_buildMap (key : Token → String) (ts : List Token) :
    ((buildMap key ts).map Prod.fst).Nodup := by
  suffices h : ∀ m : List (String × Token), (m.map Prod.fst).Nodup →
      (((ts.foldl (fun m t => insertEntry m (key t) t) m)).map Prod.fst).Nodup by
    exact h [] (by simp)
  induction ts with
  | nil => intro m hm; simpa using hm
  | cons t ts ih =>
    intro m hm
    simp only [List.foldl_cons]
    exact ih _ (nodup_keys_insertEntry _ _ _ hm)

/-! ### Congruence in the identity-key function -/

theorem foldl_insert_congr (k1 k2 : Token → String) :
    ∀ (ts : List Token) (m : List (String × Token)),
      (∀ t ∈ ts, k1 t = k2 t) →
      ts.foldl (fun m t => insertEntry m (k1 t) t) m =
        ts.foldl (fun m t => insertEntry m (k2 t) t) m := by
  intro ts
  induction ts with
  | nil => intro m _; rfl
  | cons t ts ih =>
    intro m h
    simp only [List.foldl_cons]
    rw [h t (List.mem_cons_self t ts)]
    exact ih _ fun u hu => h u (List.mem_cons_of_mem t hu)

theorem buildMap_key_congr (k1 k2 : Token → String) (ts : List Token)
    (h : ∀ t ∈ ts, k1 t = k2 t) : buildMap k1 ts = buildMap k2 ts :=
  foldl_insert_congr k1 k2 ts [] h

theorem stepChange_key_congr (k1 k2 : Token → String) (flags : Bool × Bool × Bool)
    (c : TokenChange)
    (h : ∀ t ∈ c.before.getD [] ++ c.after.getD [], k1 t = k2 t) :
    stepChange k1 flags c = stepChange k2 flags c := by
  cases hty : c.type
  · simp [stepChange, hty]
  · have hb : buildMap k1 (c.before.getD []) = buildMap k2 (c.before.getD []) :=
      buildMap_key_congr k1 k2 _ fun t ht => h t (List.mem_append_left _ ht)
    have ha : buildMap k1 (c.after.getD []) = buildMap k2 (c.after.getD []) :=
      buildMap_key_congr k1 k2 _ fun t ht => h t (List.mem_append_right _ ht)
    simp only [stepChange, hty, processModified, hb, ha]
  · simp [stepChange, hty]

theorem foldl_step_key_congr (k1 k2 : Token → String) :
    ∀ (changes : List TokenChange) (flags : Bool × Bool × Bool),
      (∀ c ∈ changes, ∀ t ∈ c.before.getD [] ++ c.after.getD [], k1 t = k2 t) →
      changes.foldl (stepChange k1) flags = changes.foldl (stepChange k2) flags := by
  intro changes
  induction changes with
  | nil => intro flags _; rfl
  | cons c cs ih =>
    intro flags h
    simp only [List.foldl_cons]
    rw [stepChange_key_congr k1 k2 flags c (h c (List.mem_cons_self c cs))]
    exact ih _ fun u hu => h u (List.mem_cons_of_mem c hu)

theorem dviKeyed_key_congr (k1 k2 : Token → String) (changes : List TokenChange)
    (h : ∀ c ∈ changes, ∀ t ∈ c.before.getD [] ++ c.after.getD [], k1 t = k2 t) :
    determineVersionIncrementKeyed k1 changes =
      determineVersionIncrementKeyed k2 changes := by
  unfold determineVersionIncrementKeyed
  rw [foldl_step_key_congr k1 k2 changes _ h]

/-! ### Joining verdicts of singleton calls -/

/-- Priority rank of a verdict: major over minor over patch over none. -/
def rank : Option Increment → Nat
  | none => 0
  | some Increment.patch => 1
  | some Increment.minor => 2
  | some Increment.major => 3

/-- Higher-priority verdict of two. -/
def verdictMax (v w : Option Increment) : Option Increment :=
  if rank v < rank w then w else v

theorem dvi_keyed_cons (key : Token → String) (c : TokenChange)
    (cs : List TokenChange) :
    determineVersionIncrementKeyed key (c :: cs) =
      verdictMax (determineVersionIncrementKeyed key [c])
        (determineVersionIncrementKeyed key cs) := by
  rw [determineVersionIncrementKeyed_eq, determineVersionIncrementKeyed_eq,
    determineVersionIncrementKeyed_eq]
  simp only [majFlag, minFlag, patFlag, List.any_cons, List.any_nil, Bool.or_false]
  by_cases h1 : majRecord key c = true <;> by_cases h2 : minRecord key c = true <;>
    by_cases h3 : patRecord key c = true <;>
      by_cases h4 : cs.any (majRecord key) = true <;>
        by_cases h5 : cs.any (minRecord key) = true <;>
          by_cases h6 : cs.any (patRecord key) = true <;>
            simp [h1, h2, h3, h4, h5, h6, verdictMax, rank]

theorem dvi_keyed_join (key : Token → String) (changes : List TokenChange) :
    determineVersionIncrementKeyed key changes =
      (changes.map fun c => determineVersionIncrementKeyed key [c]).foldr
        verdictMax none := by
  induction changes with
  | nil => rfl
  | cons c cs ih => rw [dvi_keyed_cons, ih]; rfl

theorem majFlag_perm (key : Token → String) {changes changes' : List TokenChange}
    (h : changes.Perm changes') : majFlag key changes = majFlag key changes' :=
  perm_any _ h

theorem minFlag_perm (key : Token → String) {changes changes' : List TokenChange}
    (h : changes.Perm changes') : minFlag key changes = minFlag key changes' :=
  perm_any _ h

theorem patFlag_perm (key : Token → String) {changes changes' : List TokenChange}
    (h : changes.Perm changes') : patFlag key changes = patFlag key changes' :=
  perm_any _ h

theorem dvi_keyed_perm (key : Token → String) {changes changes' : List TokenChange}
    (h : changes.Perm changes') :
    determineVersionIncrementKeyed key changes =
      determineVersionIncrementKeyed key changes' := by
  rw [determineVersionIncrementKeyed_eq, determineVersionIncrementKeyed_eq,
    majFlag_perm key h, minFlag_perm key h, patFlag_perm key h]

/-! ### The identity key determines the address

The key string is `address ++ "-" ++ tail` where the tail — a digit string or
the sentinel "undefined" — never contains a dash, so the dash before the tail
is the last dash of the key and the decomposition is unique. -/

theorem digitChar_ne_dash (d : Nat) : digitChar d ≠ '-' := by
  unfold digitChar
  repeat' split
  all_goals decide

theorem natToStringAux_ne_dash : ∀ (fuel n : Nat) (acc : List Char),
    (∀ c ∈ acc, c ≠ '-') → ∀ c ∈ natToStringAux fuel n acc, c ≠ '-' := by
  intro fuel
  induction fuel with
  | zero => intro n acc h; simpa [natToStringAux] using h
  | succ fuel ih =>
    intro n acc h
    unfold natToStringAux
    by_cases hn : n < 10
    · rw [if_pos hn]
      intro c hc
      rcases List.mem_cons.mp hc with rfl | hc
      · exact digitChar_ne_dash _
      · exact h c hc
    · rw [if_neg hn]
      refine ih (n / 10) _ ?_
      intro c hc
      rcases List.mem_cons.mp hc with rfl | hc
      · exact digitChar_ne_dash _
      · exact h c hc

theorem natToString_ne_dash (n : Nat) : ∀ c ∈ (natToString n).data, c ≠ '-' :=
  natToStringAux_ne_dash (n + 1) n [] (by simp)

theorem chainIdInterp_ne_dash (c : Option Nat) :
    ∀ ch ∈ (chainIdInterp c).data, ch ≠ '-' := by
  cases c with
  | none => decide
  | some n => exact natToString_ne_dash n

theorem append_dash_inj : ∀ (l1 l2 a b : List Char),
    (∀ c ∈ a, c ≠ '-') → (∀ c ∈ b, c ≠ '-') →
    l1 ++ '-' :: a = l2 ++ '-' :: b → l1 = l2 ∧ a = b := by
  intro l1
  induction l1 with
  | nil =>
    intro l2 a b ha hb h
    cases l2 with
    | nil => simpa using h
    | cons y l2 =>
      simp only [List.nil_append, List.cons_append, List.cons.injEq] at h
      exact absurd rfl
        (ha '-' (h.2.symm ▸ List.mem_append_right l2 (List.mem_cons_self _ _)))
  | cons x l1 ih =>
    intro l2 a b ha hb h
    cases l2 with
    | nil =>
      simp only [List.cons_append, List.nil_append, List.cons.injEq] at h
      exact absurd rfl
        (hb '-' (h.2 ▸ List.mem_append_right l1 (List.mem_cons_self _ _)))
    | cons y l2 =>
      simp only [List.cons_append, List.cons.injEq] at h
      obtain ⟨rfl, h2⟩ := h
      obtain ⟨he, ha'⟩ := ih l2 a b ha hb h2
      exact ⟨by rw [he], ha'⟩

theorem string_data_append (s t : String) : (s ++ t).data = s.data ++ t.data :=
  rfl

theorem string_eq_of_data_eq {s t : String} (h : s.data = t.data) : s = t := by
  cases s; cases t; exact congrArg String.mk h

theorem dash_data : ("-" : String).data = ['-'] := rfl

theorem buildKey_data (t : Token) :
    (buildKey t).data = t.address.data ++ '-' :: (chainIdInterp t.chainId).data := by
  show (t.address ++ "-" ++ chainIdInterp t.chainId).data = _
  rw [string_data_append, string_data_append, dash_data]
  simp

theorem buildKey_ne_of_address_ne {t t' : Token} (h : t.address ≠ t'.address) :
    buildKey t ≠ buildKey t' := by
  intro he
  have hd : (buildKey t).data = (buildKey t').data := by rw [he]
  rw [buildKey_data, buildKey_data] at hd
  have hsplit := append_dash_inj t.address.data t'.address.data _ _
    (chainIdInterp_ne_dash t.chainId) (chainIdInterp_ne_dash t'.chainId) hd
  exact h (string_eq_of_data_eq hsplit.1)

/-! ### Normalising absent token arrays to empty ones -/

/-- Replace a missing `before`/`after` by an explicit empty array, the
`change.before || []` default the classifier applies. -/
def normChange (c : TokenChange) : TokenChange :=
  { c with before := some (c.before.getD []), after := some (c.after.getD []) }

theorem stepChange_normChange (key : Token → String) (flags : Bool × Bool × Bool)
    (c : TokenChange) :
    stepChange key flags (normChange c) = stepChange key flags c := by
  cases hty : c.type <;> simp [stepChange, normChange, hty]

theorem foldl_step_norm (key : Token → String) :
    ∀ (changes : List TokenChange) (flags : Bool × Bool × Bool),
      (changes.map normChange).foldl (stepChange key) flags =
        changes.foldl (stepChange key) flags := by
  intro changes
  induction changes with
  | nil => intro flags; rfl
  | cons c cs ih =>
    intro flags
    simp only [List.map_cons, List.foldl_cons, stepChange_normChange]
    exact ih _

theorem dvi_keyed_norm (key : Token → String) (changes : List TokenChange) :
    determineVersionIncrementKeyed key (changes.map normChange) =
      determineVersionIncrementKeyed key changes := by
  unfold determineVersionIncrementKeyed
  rw [foldl_step_norm]

/-! ### Concrete tokens used in counterexamples and witnesses -/

/-- A token with distinct identity key from `tokNew`. -/
def tokBase : Token := ⟨"0x123", some 1, "Test", "TEST", 18, some "test.png"⟩

/-- A second token, distinct key from `tokBase`. -/
def tokNew : Token := ⟨"0x456", some 1, "New Token", "NEW", 18, some "new.png"⟩

/-- `tokBase` with only its name changed (a patch-worthy edit). -/
def tokBaseRenamed : Token := { tokBase with name := "Test Updated" }

/-- `tokBase` with its address changed and other fields edited too. -/
def tokMoved : Token := ⟨"0x456", some 1, "Test Updated", "TEST", 6, some "test.png"⟩

/-- Token with key `0xa-1`. -/
def tokX : Token := ⟨"0xa", some 1, "X", "S", 18, none⟩

/-- Same identity key as `tokX`, different name. -/
def tokY : Token := ⟨"0xa", some 1, "Y", "S", 18, none⟩

/-- `tokX` with its address changed. -/
def tokXb : Token := ⟨"0xb", some 1, "X", "S", 18, none⟩

/-- `tokX` with only its decimals changed. -/
def tokX6 : Token := ⟨"0xa", some 1, "X", "S", 6, none⟩

/-- Token with absent chainId. -/
def tokNoChain : Token := ⟨"0xa", none, "N", "S", 18, none⟩

/-- Token with chainId 0, the falsy value the test-file key collapses to the
sentinel. -/
def tokChain0 : Token := ⟨"0xa", some 0, "N", "S", 18, none⟩

/-- A record that only adds a token (minor on its own). -/
def additionRecord : TokenChange :=
  ⟨"chains/1.json", ChangeType.modified, some [tokBase], some [tokBase, tokNew]⟩

/-- A record that only edits token metadata (patch on its own). -/
def metadataRecord : TokenChange :=
  ⟨"chains/2.json", ChangeType.modified, some [tokBase], some [tokBaseRenamed]⟩

/-! ### Claims -/

/-- Claim C1: for every change list `determineVersionIncrement` returns one of
exactly four verdicts (major, minor, patch, none), and when several flag
conditions hold at once the verdict is resolved by strict priority: major flag
→ major, else minor flag → minor, else patch flag → patch, else none. -/
theorem verdict_four_values_and_priority (changes : List TokenChange) :
    (determineVersionIncrement changes = some Increment.major ∨
      determineVersionIncrement changes = some Increment.minor ∨
      determineVersionIncrement changes = some Increment.patch ∨
      determineVersionIncrement changes = none) ∧
    determineVersionIncrement changes =
      (if majFlag buildKey changes then some Increment.major
       else if minFlag buildKey changes then some Increment.minor
       else if patFlag buildKey changes then some Increment.patch
       else none) := by
  refine ⟨?_, determineVersionIncrementKeyed_eq buildKey changes⟩
  rcases h : determineVersionIncrement changes with _ | i
  · exact Or.inr (Or.inr (Or.inr rfl))
  · cases i
    · exact Or.inl rfl
    · exact Or.inr (Or.inl rfl)
    · exact Or.inr (Or.inr (Or.inl rfl))

/-- Claim C3: the verdict over a change list is the priority-join of the
verdicts each record yields alone (flags OR-aggregate across records), the
order of the records never affects the verdict, and concretely one
token-addition record plus one metadata-change record yields minor. -/
theorem verdict_join_and_order_free (changes changes' : List TokenChange)
    (hperm : changes.Perm changes') :
    determineVersionIncrement changes =
      (changes.map fun c => determineVersionIncrement [c]).foldr verdictMax none ∧
    determineVersionIncrement changes = determineVersionIncrement changes' ∧
    determineVersionIncrement [additionRecord, metadataRecord] =
      some Increment.minor :=
  ⟨dvi_keyed_join buildKey changes, dvi_keyed_perm buildKey hperm, rfl⟩

/-- Concrete instantiation of the C3 theorem. -/
theorem verdict_join_and_order_free_inst :
    List.Perm [additionRecord, metadataRecord] [metadataRecord, additionRecord] ∧
    (determineVersionIncrement [additionRecord, metadataRecord] =
      ([additionRecord, metadataRecord].map
        fun c => determineVersionIncrement [c]).foldr verdictMax none ∧
     determineVersionIncrement [additionRecord, metadataRecord] =
       determineVersionIncrement [metadataRecord, additionRecord] ∧
     determineVersionIncrement [additionRecord, metadataRecord] =
       some Increment.minor) :=
  ⟨by decide, verdict_join_and_order_free _ _ (by decide)⟩

/-- Claim C5: any change list containing a `deleted` record classifies as
major, whatever that record's `before` holds (even empty or absent) and
whatever the other records are. -/
theorem deleted_record_yields_major (changes : List TokenChange)
    (c : TokenChange) (hc : c ∈ changes) (hty : c.type = ChangeType.deleted) :
    determineVersionIncrement changes = some Increment.major := by
  have hmaj : majFlag buildKey changes = true :=
    List.any_eq_true.mpr ⟨c, hc, by simp [majRecord, hty]⟩
  rw [determineVersionIncrement, determineVersionIncrementKeyed_eq]
  simp [hmaj]

/-- Concrete instantiation of the C5 theorem: a deleted record with absent
`before`. -/
theorem deleted_record_yields_major_inst :
    (⟨"chains/999.json", ChangeType.deleted, none, none⟩ : TokenChange) ∈
      [(⟨"chains/999.json", ChangeType.deleted, none, none⟩ : TokenChange)] ∧
    determineVersionIncrement
      [⟨"chains/999.json", ChangeType.deleted, none, none⟩] =
        some Increment.major :=
  ⟨List.mem_cons_self _ _,
    deleted_record_yields_major _ _ (List.mem_cons_self _ _) rfl⟩

/-- Claim C9: the consumer maps verdict major to (major+1, 0, 0), minor to
(major, minor+1, 0), patch to (major, minor, patch+1), and on verdict none
leaves the version triple and the artifact timestamp untouched. -/
theorem consumer_version_increment (tpl : Template) (now : String) :
    applyIncrement tpl now (some Increment.major) =
      ⟨⟨tpl.version.major + 1, 0, 0⟩, now⟩ ∧
    applyIncrement tpl now (some Increment.minor) =
      ⟨⟨tpl.version.major, tpl.version.minor + 1, 0⟩, now⟩ ∧
    applyIncrement tpl now (some Increment.patch) =
      ⟨⟨tpl.version.major, tpl.version.minor, tpl.version.patch + 1⟩, now⟩ ∧
    applyIncrement tpl now none = tpl :=
  ⟨rfl, rfl, rfl, rfl⟩

/-- Claim C10: the classifier is total by construction (it is a Lean function
into `Option Increment`); missing `before`/`after` sequences behave as empty
ones; and the key→token map keeps exactly one entry per key with the last
write winning. -/
theorem classifier_total_defaults_and_lastwins :
    (∀ changes : List TokenChange,
      determineVersionIncrement (changes.map normChange) =
        determineVersionIncrement changes) ∧
    (∀ (key : Token → String) (ts : List Token) (t : Token),
      mapLookup (buildMap key (ts ++ [t])) (key t) = some t) ∧
    (∀ (key : Token → String) (ts : List Token),
      ((buildMap key ts).map Prod.fst).Nodup) := by
  refine ⟨fun changes => dvi_keyed_norm buildKey changes,
    fun key ts t => ?_, nodup_keys_buildMap⟩
  rw [buildMap_concat]
  exact mapLookup_insertEntry_self _ _ _

theorem majRecord_perm_congr (key : Token → String) (f : String)
    (ty : ChangeType) {b b' a a' : List Token} (hb : b.Perm b') (ha : a.Perm a')
    (hnb : (b.map key).Nodup) (hna : (a.map key).Nodup) :
    majRecord key ⟨f, ty, some b', some a'⟩ =
      majRecord key ⟨f, ty, some b, some a⟩ := by
  cases ty
  · rfl
  · simp only [majRecord, Option.getD_some]
    rw [removedAny_perm key hb ha hnb, identityAny_perm key hb ha hnb hna]
  · rfl

theorem minRecord_perm_congr (key : Token → String) (f : String)
    (ty : ChangeType) {b b' a a' : List Token} (hb : b.Perm b') (ha : a.Perm a')
    (hna : (a.map key).Nodup) :
    minRecord key ⟨f, ty, some b', some a'⟩ =
      minRecord key ⟨f, ty, some b, some a⟩ := by
  cases ty
  · rfl
  · simp only [minRecord, Option.getD_some]
    rw [addedAny_perm key hb ha hna]
  · rfl

theorem patRecord_perm_congr (key : Token → String) (f : String)
    (ty : ChangeType) {b b' a a' : List Token} (hb : b.Perm b') (ha : a.Perm a')
    (hnb : (b.map key).Nodup) (hna : (a.map key).Nodup) :
    patRecord key ⟨f, ty, some b', some a'⟩ =
      patRecord key ⟨f, ty, some b, some a⟩ := by
  cases ty
  · rfl
  · simp only [patRecord, Option.getD_some]
    rw [fieldAny_perm key hb ha hnb hna]
  · rfl

/-- Claim C2 counterexample: the before-sequences `[tokX, tokY]` and
`[tokY, tokX]` are permutations of one another, yet against the same after
array the verdicts differ (patch vs none): the two tokens share an identity
key, so the `Map` keeps whichever was written last. -/
theorem perm_before_changes_verdict :
    List.Perm [tokX, tokY] [tokY, tokX] ∧
    determineVersionIncrement
      [⟨"chains/1.json", ChangeType.modified, some [tokX, tokY], some [tokX]⟩] =
        some Increment.patch ∧
    determineVersionIncrement
      [⟨"chains/1.json", ChangeType.modified, some [tokY, tokX], some [tokX]⟩] =
        none :=
  ⟨by decide, rfl, rfl⟩

/-- Claim C2 amended: permuting the tokens inside a single record's `before`
or `after` sequence never changes the verdict, provided the permuted
sequences carry pairwise-distinct identity keys. -/
theorem perm_tokens_verdict_invariant (pre post : List TokenChange) (f : String)
    (ty : ChangeType) (b b' a a' : List Token)
    (hb : b.Perm b') (ha : a.Perm a')
    (hnb : (b.map buildKey).Nodup) (hna : (a.map buildKey).Nodup) :
    determineVersionIncrement (pre ++ ⟨f, ty, some b, some a⟩ :: post) =
      determineVersionIncrement (pre ++ ⟨f, ty, some b', some a'⟩ :: post) := by
  rw [determineVersionIncrement, determineVersionIncrement,
    determineVersionIncrementKeyed_eq, determineVersionIncrementKeyed_eq]
  have hmaj : majFlag buildKey (pre ++ (⟨f, ty, some b', some a'⟩ : TokenChange) :: post) =
      majFlag buildKey (pre ++ (⟨f, ty, some b, some a⟩ : TokenChange) :: post) := by
    unfold majFlag
    rw [List.any_append, List.any_append, List.any_cons, List.any_cons,
      majRecord_perm_congr buildKey f ty hb ha hnb hna]
  have hmin : minFlag buildKey (pre ++ (⟨f, ty, some b', some a'⟩ : TokenChange) :: post) =
      minFlag buildKey (pre ++ (⟨f, ty, some b, some a⟩ : TokenChange) :: post) := by
    unfold minFlag
    rw [List.any_append, List.any_append, List.any_cons, List.any_cons,
      minRecord_perm_congr buildKey f ty hb ha hna]
  have hpat : patFlag buildKey (pre ++ (⟨f, ty, some b', some a'⟩ : TokenChange) :: post) =
      patFlag buildKey (pre ++ (⟨f, ty, some b, some a⟩ : TokenChange) :: post) := by
    unfold patFlag
    rw [List.any_append, List.any_append, List.any_cons, List.any_cons,
      patRecord_perm_congr buildKey f ty hb ha hnb hna]
  rw [hmaj, hmin, hpat]

/-- Concrete instantiation of the amended C2 theorem. -/
theorem perm_tokens_verdict_invariant_inst :
    (List.Perm [tokBase, tokNew] [tokNew, tokBase] ∧
      ([tokBase, tokNew].map buildKey).Nodup) ∧
    determineVersionIncrement
      [⟨"chains/1.json", ChangeType.modified,
        some [tokBase, tokNew], some [tokBase, tokNew]⟩] =
      determineVersionIncrement
        [⟨"chains/1.json", ChangeType.modified,
          some [tokNew, tokBase], some [tokNew, tokBase]⟩] :=
  ⟨⟨by decide, by decide⟩,
    perm_tokens_verdict_invariant [] [] "chains/1.json" ChangeType.modified
      [tokBase, tokNew] [tokNew, tokBase] [tokBase, tokNew] [tokNew, tokBase]
      (by decide) (by decide) (by decide) (by decide)⟩

/-- Claim C6 counterexample: identical token arrays in different order —
`[tokX, tokY]` against `[tokY, tokX]`, equal as multisets — classify as
patch, not none: the duplicate identity key makes each side keep a different
last-written token. -/
theorem identical_sets_reordered_not_none :
    List.Perm [tokY, tokX] [tokX, tokY] ∧
    determineVersionIncrement
      [⟨"chains/1.json", ChangeType.modified,
        some [tokX, tokY], some [tokY, tokX]⟩] = some Increment.patch :=
  ⟨by decide, rfl⟩

/-- Claim C6 amended: a `modified` record whose `before` and `after` hold the
same tokens (equal as multisets, so element-wise identical including all
compared fields) yields none, provided the identity keys are pairwise
distinct; duplicate-free identical arrays in different order yield none. -/
theorem modified_same_multiset_none (f : String) (b a : List Token)
    (hn : (b.map buildKey).Nodup) (h : a.Perm b) :
    determineVersionIncrement [⟨f, ChangeType.modified, some b, some a⟩] =
      none := by
  have hn' : (a.map buildKey).Nodup := (h.map buildKey).nodup_iff.mpr hn
  have hrem : removedAny buildKey b a = false := by
    unfold removedAny
    rw [buildMap_eq_of_nodup buildKey b hn, List.any_eq_false]
    rintro p hp
    simp only [List.mem_map] at hp
    obtain ⟨t, ht, rfl⟩ := hp
    have hk : hasKey (buildMap buildKey a) (buildKey t) = true := by
      rw [hasKey_buildMap]
      exact List.any_eq_true.mpr ⟨t, h.mem_iff.mpr ht, by simp⟩
    simp [hk]
  have hadd : addedAny buildKey b a = false := by
    unfold addedAny
    rw [buildMap_eq_of_nodup buildKey a hn', List.any_eq_false]
    rintro p hp
    simp only [List.mem_map] at hp
    obtain ⟨t, ht, rfl⟩ := hp
    have hk : hasKey (buildMap buildKey b) (buildKey t) = true := by
      rw [hasKey_buildMap]
      exact List.any_eq_true.mpr ⟨t, h.mem_iff.mp ht, by simp⟩
    simp [hk]
  have hident : identityAny buildKey b a = false := by
    unfold identityAny
    rw [buildMap_eq_of_nodup buildKey b hn, List.any_eq_false]
    rintro p hp
    simp only [List.mem_map] at hp
    obtain ⟨t, ht, rfl⟩ := hp
    have hl : mapLookup (buildMap buildKey a) (buildKey t) = some t := by
      rw [buildMap_eq_of_nodup buildKey a hn']
      exact mapLookup_map_of_mem buildKey a hn' t (h.mem_iff.mpr ht)
    simp [matchIdent, hl, tokenIdentityDiffers]
  have hfield : fieldAny buildKey b a = false := by
    unfold fieldAny
    rw [buildMap_eq_of_nodup buildKey b hn, List.any_eq_false]
    rintro p hp
    simp only [List.mem_map] at hp
    obtain ⟨t, ht, rfl⟩ := hp
    have hl : mapLookup (buildMap buildKey a) (buildKey t) = some t := by
      rw [buildMap_eq_of_nodup buildKey a hn']
      exact mapLookup_map_of_mem buildKey a hn' t (h.mem_iff.mpr ht)
    simp [matchField, hl, tokenFieldsDiffer]
  rw [determineVersionIncrement, determineVersionIncrementKeyed_eq]
  simp [majFlag, minFlag, patFlag, majRecord, minRecord, patRecord,
    hrem, hadd, hident, hfield]

/-- Concrete instantiation of the amended C6 theorem. -/
theorem modified_same_multiset_none_inst :
    (([tokBase, tokNew].map buildKey).Nodup ∧
      List.Perm [tokNew, tokBase] [tokBase, tokNew]) ∧
    determineVersionIncrement
      [⟨"chains/1.json", ChangeType.modified,
        some [tokBase, tokNew], some [tokNew, tokBase]⟩] = none :=
  ⟨⟨by decide, by decide⟩,
    modified_same_multiset_none "chains/1.json" [tokBase, tokNew]
      [tokNew, tokBase] (by decide) (by decide)⟩

/-- Claim C7 counterexample: before `[tokY, tokX]`, after `[tokY, tokXb]` —
exactly one token's address changed (tokX became tokXb, its identity key
changing), tokY untouched — yet the verdict is minor, not major: tokY shares
tokX's key, so the after-map still carries that key and no removal fires. -/
theorem address_change_not_major :
    tokXb = { tokX with address := "0xb" } ∧
    determineVersionIncrement
      [⟨"chains/1.json", ChangeType.modified,
        some [tokY, tokX], some [tokY, tokXb]⟩] = some Increment.minor :=
  ⟨rfl, rfl⟩

/-- Claim C7 amended: a single `modified` record in which one token's address
changes (any other compared fields free to change too) while all other tokens
stay untouched classifies as major, provided the before tokens carry
pairwise-distinct identity keys. -/
theorem address_change_yields_major (f : String) (l1 l2 : List Token)
    (t t' : Token) (hn : ((l1 ++ t :: l2).map buildKey).Nodup)
    (haddr : t.address ≠ t'.address) :
    determineVersionIncrement
      [⟨f, ChangeType.modified, some (l1 ++ t :: l2), some (l1 ++ t' :: l2)⟩] =
        some Increment.major := by
  have hkey : buildKey t ≠ buildKey t' := buildKey_ne_of_address_ne haddr
  have hmem : (buildKey t, t) ∈ buildMap buildKey (l1 ++ t :: l2) := by
    rw [buildMap_eq_of_nodup buildKey _ hn]
    exact List.mem_map_of_mem _ (List.mem_append_right l1 (List.mem_cons_self t l2))
  have hn2 := hn
  rw [List.map_append, List.map_cons, List.nodup_append] at hn2
  have hdisj := hn2.2.2
  have hcons := List.nodup_cons.mp hn2.2.1
  have hnotin : hasKey (buildMap buildKey (l1 ++ t' :: l2)) (buildKey t) = false := by
    rw [hasKey_buildMap, List.any_eq_false]
    intro u hu
    simp only [decide_eq_true_eq]
    rcases List.mem_append.mp hu with hu1 | hu2
    · intro hequ
      exact hdisj (List.mem_map_of_mem buildKey hu1)
        (hequ.symm ▸ List.mem_cons_self _ _)
    · rcases List.mem_cons.mp hu2 with rfl | hu3
      · exact fun he => hkey he.symm
      · intro hequ
        exact hcons.1 (hequ ▸ List.mem_map_of_mem buildKey hu3)
  have hrem : removedAny buildKey (l1 ++ t :: l2) (l1 ++ t' :: l2) = true := by
    unfold removedAny
    exact List.any_eq_true.mpr ⟨(buildKey t, t), hmem, by simp [hnotin]⟩
  rw [determineVersionIncrement, determineVersionIncrementKeyed_eq]
  simp [majFlag, majRecord, hrem]

/-- Concrete instantiation of the amended C7 theorem: address changed and
other fields edited too. -/
theorem address_change_yields_major_inst :
    (([(tokBase : Token)].map buildKey).Nodup ∧
      tokBase.address ≠ tokMoved.address) ∧
    determineVersionIncrement
      [⟨"chains/1.json", ChangeType.modified,
        some [tokBase], some [tokMoved]⟩] = some Increment.major :=
  ⟨⟨by decide, by decide⟩,
    address_change_yields_major "chains/1.json" [] [] tokBase tokMoved
      (by decide) (by decide)⟩

/-- Claim C8 counterexample: before `[tokX, tokY]`, after `[tokX6, tokY]` —
exactly one token differs, only in decimals — yields none, not patch: tokY
shares tokX's key and is written last on both sides, so both maps hold only
the unchanged tokY. -/
theorem decimals_change_not_patch :
    tokX6 = { tokX with decimals := 6 } ∧
    determineVersionIncrement
      [⟨"chains/1.json", ChangeType.modified,
        some [tokX, tokY], some [tokX6, tokY]⟩] = none :=
  ⟨rfl, rfl⟩

/-- Claim C8 amended: a single `modified` record in which one token changes
only in decimals, all else untouched, classifies as patch (never major or
minor), provided the before tokens carry pairwise-distinct identity keys. -/
theorem decimals_change_yields_patch (f : String) (l1 l2 : List Token)
    (t : Token) (d : Nat) (hn : ((l1 ++ t :: l2).map buildKey).Nodup)
    (hd : d ≠ t.decimals) :
    determineVersionIncrement
      [⟨f, ChangeType.modified, some (l1 ++ t :: l2),
        some (l1 ++ { t with decimals := d } :: l2)⟩] =
      some Increment.patch := by
  have hk : buildKey { t with decimals := d } = buildKey t := rfl
  have hmapkeys : (l1 ++ { t with decimals := d } :: l2).map buildKey =
      (l1 ++ t :: l2).map buildKey := by
    simp [List.map_append, List.map_cons, hk]
  have hna : ((l1 ++ { t with decimals := d } :: l2).map buildKey).Nodup := by
    rw [hmapkeys]; exact hn
  have hbm := buildMap_eq_of_nodup buildKey (l1 ++ t :: l2) hn
  have ham := buildMap_eq_of_nodup buildKey
    (l1 ++ { t with decimals := d } :: l2) hna
  have hkeyafter : ∀ u ∈ l1 ++ t :: l2,
      hasKey (buildMap buildKey (l1 ++ { t with decimals := d } :: l2))
        (buildKey u) = true := by
    intro u hu
    rw [hasKey_buildMap]
    refine List.any_eq_true.mpr ?_
    rcases List.mem_append.mp hu with h1 | h2
    · exact ⟨u, List.mem_append_left _ h1, by simp⟩
    · rcases List.mem_cons.mp h2 with rfl | h3
      · exact ⟨{ u with decimals := d },
          List.mem_append_right _ (List.mem_cons_self _ _), by simp [hk]⟩
      · exact ⟨u, List.mem_append_right _ (List.mem_cons_of_mem _ h3), by simp⟩
  have hkeybefore : ∀ v ∈ l1 ++ { t with decimals := d } :: l2,
      hasKey (buildMap buildKey (l1 ++ t :: l2)) (buildKey v) = true := by
    intro v hv
    rw [hasKey_buildMap]
    refine List.any_eq_true.mpr ?_
    rcases List.mem_append.mp hv with h1 | h2
    · exact ⟨v, List.mem_append_left _ h1, by simp⟩
    · rcases List.mem_cons.mp h2 with rfl | h3
      · exact ⟨t, List.mem_append_right _ (List.mem_cons_self _ _), by simp [hk]⟩
      · exact ⟨v, List.mem_append_right _ (List.mem_cons_of_mem _ h3), by simp⟩
  have hrem : removedAny buildKey (l1 ++ t :: l2)
      (l1 ++ { t with decimals := d } :: l2) = false := by
    unfold removedAny
    rw [hbm, List.any_eq_false]
    rintro p hp
    simp only [List.mem_map] at hp
    obtain ⟨u, hu, rfl⟩ := hp
    simp [hkeyafter u hu]
  have hadd : addedAny buildKey (l1 ++ t :: l2)
      (l1 ++ { t with decimals := d } :: l2) = false := by
    unfold addedAny
    rw [ham, List.any_eq_false]
    rintro p hp
    simp only [List.mem_map] at hp
    obtain ⟨v, hv, rfl⟩ := hp
    simp [hkeybefore v hv]
  have hltop : mapLookup (buildMap buildKey
        (l1 ++ { t with decimals := d } :: l2)) (buildKey t) =
      some { t with decimals := d } := by
    have hl0 := mapLookup_map_of_mem buildKey
      (l1 ++ { t with decimals := d } :: l2) hna { t with decimals := d }
      (List.mem_append_right _ (List.mem_cons_self _ _))
    rw [ham, ← hk]
    exact hl0
  have hident : identityAny buildKey (l1 ++ t :: l2)
      (l1 ++ { t with decimals := d } :: l2) = false := by
    unfold identityAny
    rw [hbm, List.any_eq_false]
    rintro p hp
    simp only [List.mem_map] at hp
    obtain ⟨u, hu, rfl⟩ := hp
    by_cases hut : u = t
    · subst hut
      simp [matchIdent, hltop, tokenIdentityDiffers]
    · have huA : u ∈ l1 ++ { t with decimals := d } :: l2 := by
        rcases List.mem_append.mp hu with h1 | h2
        · exact List.mem_append_left _ h1
        · rcases List.mem_cons.mp h2 with h3 | h3
          · exact absurd h3 hut
          · exact List.mem_append_right _ (List.mem_cons_of_mem _ h3)
      have hl : mapLookup (buildMap buildKey
          (l1 ++ { t with decimals := d } :: l2)) (buildKey u) = some u := by
        rw [ham]
        exact mapLookup_map_of_mem buildKey _ hna u huA
      simp [matchIdent, hl, tokenIdentityDiffers]
  have hd' : t.decimals ≠ d := Ne.symm hd
  have hfield : fieldAny buildKey (l1 ++ t :: l2)
      (l1 ++ { t with decimals := d } :: l2) = true := by
    unfold fieldAny
    rw [hbm]
    refine List.any_eq_true.mpr ⟨(buildKey t, t),
      List.mem_map_of_mem _ (List.mem_append_right _ (List.mem_cons_self _ _)), ?_⟩
    simp [matchField, hltop, tokenFieldsDiffer, hd']
  rw [determineVersionIncrement, determineVersionIncrementKeyed_eq]
  simp [majFlag, minFlag, patFlag, majRecord, minRecord, patRecord,
    hrem, hadd, hident, hfield]

/-- Concrete instantiation of the amended C8 theorem. -/
theorem decimals_change_yields_patch_inst :
    (([(tokX : Token)].map buildKey).Nodup ∧ (6 : Nat) ≠ tokX.decimals) ∧
    determineVersionIncrement
      [⟨"chains/1.json", ChangeType.modified,
        some [tokX], some [{ tokX with decimals := 6 }]⟩] =
      some Increment.patch :=
  ⟨⟨by decide, by decide⟩,
    decimals_change_yields_patch "chains/1.json" [] [] tokX 6
      (by decide) (by decide)⟩

/-- Claim C4 counterexample: on a token with chainId 0 the two classifier
copies disagree — the build script keys it as `0xa-0` and sees the removal of
`0xa-undefined` (major), the test copy collapses both tokens to
`0xa-undefined` and sees no change. -/
theorem classifiers_disagree_chain_zero :
    determineVersionIncrement
      [⟨"chains/1.json", ChangeType.modified,
        some [tokNoChain, tokChain0], some [tokChain0]⟩] =
          some Increment.major ∧
    determineVersionIncrementTest
      [⟨"chains/1.json", ChangeType.modified,
        some [tokNoChain, tokChain0], some [tokChain0]⟩] = none :=
  ⟨rfl, rfl⟩

/-- Claim C4 amended: the build-script classifier and the test-file classifier
agree on every change list none of whose tokens carries chainId 0 (the one
value their key constructions render differently). -/
theorem classifiers_agree_without_chain_zero (changes : List TokenChange)
    (h : ∀ c ∈ changes, ∀ t ∈ c.before.getD [] ++ c.after.getD [],
      t.chainId ≠ some 0) :
    determineVersionIncrementTest changes = determineVersionIncrement changes := by
  refine dviKeyed_key_congr testKey buildKey changes ?_
  intro c hc t ht
  have h0 := h c hc t ht
  simp only [testKey, buildKey]
  cases hch : t.chainId with
  | none => rfl
  | some n =>
    have hne : n ≠ 0 := by
      intro h0'
      exact h0 (by rw [hch, h0'])
    simp [chainIdInterpTest, chainIdInterp, hne]

/-- Concrete instantiation of the amended C4 theorem. -/
theorem classifiers_agree_without_chain_zero_inst :
    (∀ c ∈ [(⟨"chains/1.json", ChangeType.modified,
        some [tokBase], some [tokBase, tokNew]⟩ : TokenChange)],
      ∀ t ∈ c.before.getD [] ++ c.after.getD [], t.chainId ≠ some 0) ∧
    determineVersionIncrementTest
      [⟨"chains/1.json", ChangeType.modified,
        some [tokBase], some [tokBase, tokNew]⟩] =
      determineVersionIncrement
        [⟨"chains/1.json", ChangeType.modified,
          some [tokBase], some [tokBase, tokNew]⟩] :=
  ⟨by decide, classifiers_agree_without_chain_zero _ (by decide)⟩

example : natToString 0 = "0" := rfl

example : natToString 137 = "137" := rfl

example : buildKey ⟨"0xa", some 1, "T", "T", 18, none⟩ = "0xa-1" := rfl

example : testKey ⟨"0xa", some 0, "T", "T", 18, none⟩ = "0xa-undefined" := rfl

example :
    determineVersionIncrement
      [⟨"chains/1.json", ChangeType.deleted, some [], none⟩] =
      some Increment.major := rfl

example :
    determineVersionIncrement
      [⟨"chains/1.json", ChangeType.modified,
        some [⟨"0x123", none, "Test", "TEST", 18, some "test.png"⟩],
        some [⟨"0x123", none, "Test", "TST", 18, some "test.png"⟩]⟩] =
      some Increment.patch := rfl

end TokenList
